import Mathlib

/-!
Verification of the federated-learning round-orchestration core
(`src/ai/models/federated_learning.py`) against its specification.

The embedding models the Parameter Store as an ordered association list from
parameter names to flat rational tensors (a tensor's shape is its length).
Python control flow that can raise is embedded with `Except`; the error type
carries both the Python exception classes the code actually raises and the
error taxonomy named by the specification, so that claims about the taxonomy
can be stated.  Randomness (`random.shuffle`, `random.sample`) is embedded as
a deterministic function of an explicit generator state, standing for the
state of Python's global Mersenne-Twister generator.
-/

namespace AvarenFL

/-- Errors: the Python exception classes the source can raise
(`keyError`, `indexError`, `valueError`, `zeroDivisionError`, `runtimeError`)
together with the error taxonomy of the specification
(`aggregationError`, `configurationError`, `emptyShardError`). -/
inductive FLError where
  | keyError
  | indexError
  | valueError
  | zeroDivisionError
  | runtimeError
  | aggregationError
  | configurationError
  | emptyShardError
  deriving DecidableEq, Repr

/-- A tensor, flattened: its shape is its length. -/
abbrev Tensor := List ℚ

/-- A Parameter Store (`state_dict`): an ordered mapping from parameter name
to tensor, as Python dicts preserve insertion order. -/
abbrev ParamStore := List (String × Tensor)

/-- Dictionary lookup `d[key]` (the `Option` is `none` when Python would
raise `KeyError`). -/
def psLookup (d : ParamStore) (k : String) : Option Tensor :=
  (d.find? (fun p => decide (p.1 = k))).map Prod.snd

/-- The key list of a Parameter Store (`d.keys()`). -/
def psKeys (d : ParamStore) : List String := d.map Prod.fst

/-- `tensor * weight`: elementwise scalar multiplication. -/
def tensorScale (t : Tensor) (c : ℚ) : Tensor := t.map (· * c)

/-- `a + b` on tensors: elementwise; `none` when torch would raise on a
shape mismatch. -/
def tensorAdd (a b : Tensor) : Option Tensor :=
  if a.length = b.length then some (List.zipWith (· + ·) a b) else none

/-- Left fold of Python's `sum` over the remaining tensors. -/
def torchSumGo : Tensor → List Tensor → Option Tensor
  | acc, [] => some acc
  | acc, t :: rest =>
    match tensorAdd acc t with
    | some a => torchSumGo a rest
    | none => none

/-- Python's `sum` over a list of tensors (`0 + t` for the first tensor is
`t`; the sum of an empty generator is modelled as the empty tensor). -/
def torchSum (ts : List Tensor) : Option Tensor :=
  match ts with
  | [] => some []
  | t :: rest => torchSumGo t rest

/-- Left-to-right effectful map: the loop evaluation order of a Python
comprehension, stopping at the first raised exception. -/
def mapExcept (f : α → Except FLError β) : List α → Except FLError (List β)
  | [] => Except.ok []
  | a :: t =>
    match f a with
    | Except.error e => Except.error e
    | Except.ok b =>
      match mapExcept f t with
      | Except.error e => Except.error e
      | Except.ok bs => Except.ok (b :: bs)

/-- One term `client_dict[key] * weight` of the aggregation generator;
`keyError` when `key` is absent from the client dict. -/
def aggTerm (p : ParamStore × ℚ) (k : String) : Except FLError Tensor :=
  match psLookup p.1 k with
  | some t => Except.ok (tensorScale t p.2)
  | none => Except.error FLError.keyError

/-- `sum(client_dict[key] * weight for client_dict, weight in
zip(client_updates, client_weights))` for one key. -/
def aggKey (updates : List ParamStore) (weights : List ℚ) (k : String) :
    Except FLError Tensor :=
  match mapExcept (fun p => aggTerm p k) (updates.zip weights) with
  | Except.error e => Except.error e
  | Except.ok terms =>
    match torchSum terms with
    | some s => Except.ok s
    | none => Except.error FLError.runtimeError

/-- What `load_state_dict` leaves in one model entry: the incoming tensor
when the key is present in `d` with the model's shape (`param.copy_` runs),
the old tensor otherwise (the copy is skipped and an error recorded). -/
def loadedEntry (d : ParamStore) (p : String × Tensor) : String × Tensor :=
  (p.1, match psLookup d p.1 with
    | some t => if t.length = p.2.length then t else p.2
    | none => p.2)

/-- The model state after `load_state_dict(d)`: torch traverses the module's
own parameters and copies every matching-shape key of `d` in place — also
when other keys mismatch and the call subsequently raises. -/
def loadedStore (model d : ParamStore) : ParamStore :=
  model.map (loadedEntry d)

/-- Whether a strict `load_state_dict(d)` finishes without error messages:
every model key must be present in `d` with the model's shape (no missing or
size-mismatched keys), and `d` must hold no unexpected keys. -/
def loadOk (model d : ParamStore) : Bool :=
  model.all (fun p =>
    match psLookup d p.1 with
    | some t => decide (t.length = p.2.length)
    | none => false)
  && d.all (fun q => (psLookup model q.1).isSome)

/-- `self.global_model.load_state_dict(global_dict)`, strict: the traversal
first copies every matching-shape key into the model in place, and only
afterwards raises when any key was missing, unexpected or size-mismatched —
so a failed load can leave the model partially updated. -/
def loadStateDict (model d : ParamStore) : ParamStore × Except FLError Unit :=
  (loadedStore model d,
    if loadOk model d = true then Except.ok ()
    else Except.error FLError.runtimeError)

/-- Lines 107–113 of the source: resolve the default weights, deep-copy
`client_updates[0]` (IndexError on an empty list) and reassign every one of
its keys to the weighted sum over `zip(client_updates, client_weights)`.
This all happens before the global model is touched. -/
def computeGlobalDict (updates : List ParamStore)
    (weights? : Option (List ℚ)) : Except FLError ParamStore :=
  let weights := match weights? with
    | none => updates.map (fun _ => 1 / ((updates.length : ℕ) : ℚ))
    | some w => w
  match updates with
  | [] => Except.error FLError.indexError
  | g0 :: _ =>
    mapExcept (fun k =>
      match aggKey updates weights k with
      | Except.error e => Except.error e
      | Except.ok t => Except.ok (k, t)) (psKeys g0)

/-- `FederatedServer.aggregate_models(client_updates, client_weights)`:
compute the new dictionary (no weight validation is performed), then load it
into the global model.  Returns the global model's state after the call
together with the outcome; an exception during the computation stage leaves
the global store untouched, while `loadStateDict` itself may partially
update it before raising. -/
def aggregate_models (globalModel : ParamStore) (updates : List ParamStore)
    (weights? : Option (List ℚ)) : ParamStore × Except FLError Unit :=
  match computeGlobalDict updates weights? with
  | Except.error e => (globalModel, Except.error e)
  | Except.ok newDict => loadStateDict globalModel newDict

/-- A heap of Parameter Store objects, for the object-identity (aliasing)
semantics of `aggregate_models`: `heap` holds all live stores, addressed by
index, and `globalRef` is the address of `self.global_model`'s state. -/
structure AggState where
  heap : List ParamStore
  globalRef : ℕ
  deriving DecidableEq, Repr

/-- Dereference a list of heap addresses. -/
def lookupRefs (heap : List ParamStore) : List ℕ → Option (List ParamStore)
  | [] => some []
  | r :: t =>
    match heap.get? r with
    | none => none
    | some u =>
      match lookupRefs heap t with
      | none => none
      | some us => some (u :: us)

/-- `aggregate_models` at heap level: the client updates are references into
the heap.  The aggregate is computed into a fresh dictionary (the deep copy
of `client_updates[0]`); only the global model's cell is ever written, with
whatever state — complete, partial, or unchanged — `aggregate_models` leaves
the global model in, and the state at a raised exception is returned as the
exception leaves it. -/
def aggregateModelsRef (st : AggState) (refs : List ℕ)
    (weights? : Option (List ℚ)) : AggState × Except FLError Unit :=
  match st.heap.get? st.globalRef with
  | none => (st, Except.error FLError.indexError)
  | some g =>
    match lookupRefs st.heap refs with
    | none => (st, Except.error FLError.indexError)
    | some updates =>
      match aggregate_models g updates weights? with
      | (newG, outcome) =>
        ({ st with heap := st.heap.set st.globalRef newG }, outcome)

/-- One step of the linear congruential generator standing for the state
evolution of Python's global random generator. -/
def lcg (s : ℕ) : ℕ := (s * 1103515245 + 12345) % 2147483648

/-- The recursion of `shuffle`, structural in a fuel argument (the fuel is
always at least the list length, so the exhaustion branch is unreachable). -/
def shuffleGo : ℕ → ℕ → List α → List α
  | 0, _, _ => []
  | _ + 1, _, [] => []
  | fuel + 1, s, a :: t =>
    let j := lcg s % (t.length + 1)
    (a :: t).get ⟨j, Nat.mod_lt _ (Nat.succ_pos _)⟩ ::
      shuffleGo fuel (lcg s) ((a :: t).eraseIdx j)

/-- `random.shuffle`, as a deterministic function of the generator state:
repeatedly draw an index below the remaining length and move that element to
the front.  Any generator yields some permutation; the same state yields the
same one. -/
def shuffle (s : ℕ) (l : List α) : List α := shuffleGo l.length s l

/-- `FederatedServer.select_clients()`:
`num_selected = max(1, int(num_clients * client_fraction))` and
`random.sample(range(num_clients), num_selected)`, which raises `ValueError`
when the sample size exceeds the population and otherwise returns
`num_selected` distinct members of `range(num_clients)` (modelled as a
prefix of a shuffle of the population). -/
def select_clients (s : ℕ) (numClients : ℕ) (fraction : ℚ) :
    Except FLError (List ℕ) :=
  let numSelected := max 1 (Int.toNat ⌊(numClients : ℚ) * fraction⌋)
  if numSelected ≤ numClients then
    Except.ok ((shuffle s (List.range numClients)).take numSelected)
  else Except.error FLError.valueError

/-- `sorted(set(labels))`. -/
def uniqueSorted (l : List ℤ) : List ℤ :=
  List.insertionSort (· ≤ ·) l.dedup

/-- The IID chunking loop of `split_data`: shard `i` is
`indices[i*chunk_size : (i+1)*chunk_size]` for all but the last client, and
`indices[i*chunk_size : data_size]` for the last one. -/
def iidChunks (indices : List α) (c n : ℕ) : List (List α) :=
  (List.range n).map (fun i =>
    if i < n - 1 then (indices.drop (i * c)).take c
    else indices.drop (i * c))

/-- `split_data(dataset, num_clients, method)`: the dataset is represented by
its list of labels (features play no role in the split); a shard is the list
of dataset indices assigned to that client.  IID: shuffle the index range and
cut it into contiguous chunks of size `data_size // num_clients`, remainder
to the last client.  Non-IID: give client `i` the `i`-th block of
`len(unique_labels) // num_clients` sorted distinct labels and every index
whose label falls in that block.  Any other method falls through and returns
the empty list of shards. -/
def split_data (s : ℕ) (labels : List ℤ) (numClients : ℕ) (method : String) :
    List (List ℕ) :=
  let dataSize := labels.length
  if method = "iid" then
    iidChunks (shuffle s (List.range dataSize)) (dataSize / numClients) numClients
  else if method = "non_iid" then
    let uniq := uniqueSorted labels
    let nlpc := uniq.length / numClients
    (List.range numClients).map (fun i =>
      let clientLabels := (uniq.drop (i * nlpc)).take nlpc
      (labels.enum.filter (fun p => decide (p.2 ∈ clientLabels))).map Prod.fst)
  else []

/-- Python division on rationals: raises `ZeroDivisionError` on a zero
denominator. -/
def pyDiv (a b : ℚ) : Except FLError ℚ :=
  if b = 0 then Except.error FLError.zeroDivisionError else Except.ok (a / b)

/-- One epoch of `Client.train`'s inner loop: fold the pluggable local
optimizer step over the mini-batches, accumulating `epoch_loss`. -/
def trainEpoch (step : σ → β → σ × ℚ) (st : σ) (batches : List β) : σ × ℚ :=
  batches.foldl (fun acc b =>
    let r := step acc.1 b
    (r.1, acc.2 + r.2)) (st, 0)

/-- The epoch loop of `Client.train`: after each epoch,
`total_loss += epoch_loss / len(self.data_loader)`. -/
def clientTrainLoop (step : σ → β → σ × ℚ) (batches : List β) :
    ℕ → σ → ℚ → Except FLError (σ × ℚ)
  | 0, st, total => Except.ok (st, total)
  | e + 1, st, total =>
    let r := trainEpoch step st batches
    match pyDiv r.2 (batches.length : ℚ) with
    | Except.error err => Except.error err
    | Except.ok avg => clientTrainLoop step batches e r.1 (total + avg)

/-- `Client.train(epochs)`: run the epoch loop, then return the model state
and `avg_loss = total_loss / epochs`.  The model, loss and optimizer are the
pluggable black boxes `σ`, `β` and `step` of the specification. -/
def clientTrain (step : σ → β → σ × ℚ) (st0 : σ) (batches : List β)
    (epochs : ℕ) : Except FLError (σ × ℚ) :=
  match clientTrainLoop step batches epochs st0 0 with
  | Except.error err => Except.error err
  | Except.ok r =>
    match pyDiv r.2 (epochs : ℚ) with
    | Except.error err => Except.error err
    | Except.ok avg => Except.ok (r.1, avg)

/-! ### Library lemmas about the embedding -/

/-- Moving the selected element to the front is a permutation. -/
theorem get_cons_eraseIdx_perm :
    ∀ (l : List α) (j : ℕ) (h : j < l.length),
      List.Perm (l.get ⟨j, h⟩ :: l.eraseIdx j) l
  | _ :: _, 0, _ => by simp [List.eraseIdx]
  | a :: t, j + 1, h => by
    have hj : j < t.length := by simpa using h
    have ih := get_cons_eraseIdx_perm t j hj
    show List.Perm (t.get ⟨j, hj⟩ :: a :: t.eraseIdx j) (a :: t)
    exact (List.Perm.swap a _ _).trans (ih.cons a)

/-- `shuffleGo` permutes its input whenever the fuel suffices. -/
theorem shuffleGo_perm :
    ∀ (fuel s : ℕ) (l : List α), l.length ≤ fuel →
      List.Perm (shuffleGo fuel s l) l
  | 0, _, l, h => by
    have : l = [] := List.eq_nil_of_length_eq_zero (Nat.le_zero.mp h)
    simp [this, shuffleGo]
  | _ + 1, _, [], _ => by simp [shuffleGo]
  | fuel + 1, s, a :: t, h => by
    have hj : lcg s % (t.length + 1) < (a :: t).length :=
      Nat.mod_lt _ (Nat.succ_pos _)
    have hlen : ((a :: t).eraseIdx (lcg s % (t.length + 1))).length ≤ fuel := by
      have h2 := List.length_eraseIdx_add_one (l := a :: t)
        (i := lcg s % (t.length + 1)) hj
      simp only [List.length_cons] at h h2
      omega
    have ih := shuffleGo_perm fuel (lcg s) ((a :: t).eraseIdx (lcg s % (t.length + 1))) hlen
    show List.Perm ((a :: t).get ⟨lcg s % (t.length + 1), hj⟩ ::
      shuffleGo fuel (lcg s) ((a :: t).eraseIdx (lcg s % (t.length + 1)))) (a :: t)
    exact (ih.cons _).trans (get_cons_eraseIdx_perm _ _ hj)

/-- `shuffle` returns a permutation of its input. -/
theorem shuffle_perm (s : ℕ) (l : List α) : List.Perm (shuffle s l) l :=
  shuffleGo_perm l.length s l le_rfl

/-- `shuffle` preserves length. -/
theorem shuffle_length (s : ℕ) (l : List α) :
    (shuffle s l).length = l.length :=
  (shuffle_perm s l).length_eq

/-- Each non-head IID chunk of `l` is the corresponding chunk of `l.drop c`. -/
theorem iidChunks_shift (l : List α) (c i : ℕ) :
    l.drop ((i + 1) * c) = (l.drop c).drop (i * c) := by
  rw [List.drop_drop, Nat.succ_mul, Nat.add_comm]

/-- Peeling the first IID chunk. -/
theorem iidChunks_succ_succ (l : List α) (c n : ℕ) :
    iidChunks l c (n + 2) = l.take c :: iidChunks (l.drop c) c (n + 1) := by
  unfold iidChunks
  rw [List.range_succ_eq_map, List.map_cons, List.map_map]
  refine congrArg₂ List.cons (by simp) ?_
  apply List.map_congr_left
  intro i hi
  have hcond : (i.succ < n + 2 - 1) ↔ (i < n) := by omega
  simp only [Function.comp_apply, iidChunks_shift l c i, Nat.add_sub_cancel,
    hcond]

/-- Concatenating the IID chunks gives back the chunked list: the slices
`[0, c), [c, 2c), …, [(n-1)c, end)` tile the list. -/
theorem iidChunks_flatten (c : ℕ) :
    ∀ (n : ℕ), 1 ≤ n → ∀ (l : List α), (iidChunks l c n).flatten = l
  | 1, _, l => by simp [iidChunks, List.range_succ]
  | n + 2, _, l => by
    have ih := iidChunks_flatten c (n + 1) (by omega) (l.drop c)
    rw [iidChunks_succ_succ, List.flatten_cons, ih, List.take_append_drop]

/-- The shard sizes produced by the IID chunking with the source's chunk
size `len / n`: every shard but the last has `len / n` elements, and the
last has `len / n + len % n`. -/
theorem iidChunks_length (l : List α) (n : ℕ) (h : 1 ≤ n) :
    (iidChunks l (l.length / n) n).map List.length
      = (List.range n).map (fun i =>
          if i < n - 1 then l.length / n else l.length / n + l.length % n) := by
  unfold iidChunks
  rw [List.map_map]
  apply List.map_congr_left
  intro i hi
  have hin : i < n := List.mem_range.mp hi
  have hnc : n * (l.length / n) ≤ l.length := by
    rw [Nat.mul_comm]
    exact Nat.div_mul_le_self l.length n
  by_cases hc : i < n - 1
  · simp only [Function.comp_apply, hc, if_true]
    rw [List.length_take, List.length_drop]
    have h2 : (i + 1) * (l.length / n) ≤ (n - 1) * (l.length / n) :=
      Nat.mul_le_mul_right _ (by omega)
    have h3 : (n - 1) * (l.length / n) ≤ n * (l.length / n) :=
      Nat.mul_le_mul_right _ (by omega)
    have hmul : (i + 1) * (l.length / n) ≤ l.length := by omega
    rw [Nat.succ_mul] at hmul
    omega
  · simp only [Function.comp_apply, hc, if_false]
    have hieq : i = n - 1 := by omega
    rw [List.length_drop, hieq]
    obtain ⟨m, rfl⟩ : ∃ m, n = m + 1 := ⟨n - 1, by omega⟩
    simp only [Nat.add_sub_cancel]
    have hdm := Nat.div_add_mod l.length (m + 1)
    have hsucc : (m + 1) * (l.length / (m + 1))
        = m * (l.length / (m + 1)) + l.length / (m + 1) := Nat.succ_mul m _
    rw [hsucc] at hdm
    generalize hP : m * (l.length / (m + 1)) = P at hdm ⊢
    generalize hq : l.length / (m + 1) = q at hdm ⊢
    generalize hrr : l.length % (m + 1) = w at hdm ⊢
    omega

/-- `mapExcept` succeeds pointwise when every element succeeds. -/
theorem mapExcept_ok (f : α → Except FLError β) (g : α → β) :
    ∀ (l : List α), (∀ a ∈ l, f a = Except.ok (g a)) →
      mapExcept f l = Except.ok (l.map g)
  | [], _ => rfl
  | a :: t, h => by
    have ha := h a (by simp)
    have ht := mapExcept_ok f g t (fun x hx => h x (by simp [hx]))
    simp [mapExcept, ha, ht]

/-- Zipping a list with a map of itself pairs each element with its image. -/
theorem zip_map_self (f : α → β) :
    ∀ (l : List α), l.zip (l.map f) = l.map (fun x => (x, f x))
  | [] => rfl
  | a :: t => by simp [List.zip_cons_cons, zip_map_self f t]

/-- Folding `tensorAdd` over same-length tensors succeeds and adds
componentwise. -/
theorem torchSumGo_spec (L : ℕ) :
    ∀ (ts : List Tensor) (acc : Tensor), acc.length = L →
      (∀ t ∈ ts, t.length = L) →
      ∃ s, torchSumGo acc ts = some s ∧ s.length = L ∧
        ∀ j, j < L →
          s.getD j 0 = acc.getD j 0 + (ts.map (fun t => t.getD j 0)).sum
  | [], acc, hacc, _ => ⟨acc, rfl, hacc, fun j _ => by simp⟩
  | t :: rest, acc, hacc, hts => by
    have hlt : t.length = L := hts t (by simp)
    have hadd : tensorAdd acc t = some (List.zipWith (· + ·) acc t) := by
      rw [tensorAdd, if_pos (by rw [hacc, hlt])]
    have hlz : (List.zipWith (· + ·) acc t).length = L := by
      rw [List.length_zipWith, hacc, hlt, Nat.min_self]
    obtain ⟨s, hgo, hsl, hsv⟩ := torchSumGo_spec L rest
      (List.zipWith (· + ·) acc t) hlz (fun x hx => hts x (by simp [hx]))
    refine ⟨s, ?_, hsl, ?_⟩
    · simp only [torchSumGo, hadd]
      exact hgo
    · intro j hj
      have hz : (List.zipWith (· + ·) acc t).getD j 0
          = acc.getD j 0 + t.getD j 0 := by
        have hja : j < acc.length := by omega
        have hjt : j < t.length := by omega
        have hjz : j < (List.zipWith (· + ·) acc t).length := by omega
        rw [List.getD_eq_getElem _ _ hjz, List.getD_eq_getElem _ _ hja,
          List.getD_eq_getElem _ _ hjt, List.getElem_zipWith]
      rw [hsv j hj, hz, List.map_cons, List.sum_cons]
      ring

/-- `aggKey` over updates that all hold key `k` with a common shape `L`
succeeds, and the result is the componentwise weighted sum with the common
weight `c`. -/
theorem aggKey_uniform_spec (updates : List ParamStore) (c : ℚ) (k : String)
    (L : ℕ) (hne : updates ≠ [])
    (hcompat : ∀ v ∈ updates, (psLookup v k).isSome = true ∧
      ((psLookup v k).getD []).length = L) :
    ∃ s, aggKey updates (updates.map (fun _ => c)) k = Except.ok s ∧
      s.length = L ∧
      ∀ j, j < L →
        s.getD j 0
          = (updates.map (fun v => ((psLookup v k).getD []).getD j 0)).sum * c := by
  have hall : ∀ a ∈ updates.map (fun x => (x, c)),
      aggTerm a k
        = Except.ok (tensorScale ((psLookup a.1 k).getD []) a.2) := by
    intro a ha
    rcases List.mem_map.mp ha with ⟨v, hv, rfl⟩
    obtain ⟨hsome, _⟩ := hcompat v hv
    rcases Option.isSome_iff_exists.mp hsome with ⟨t, ht⟩
    simp [aggTerm, ht]
  have hterms : mapExcept (fun p => aggTerm p k)
      (updates.zip (updates.map (fun _ => c)))
      = Except.ok (updates.map (fun v => tensorScale ((psLookup v k).getD []) c)) := by
    rw [zip_map_self,
      mapExcept_ok _ (fun p => tensorScale ((psLookup p.1 k).getD []) p.2) _ hall,
      List.map_map]
    rfl
  have hlens : ∀ t ∈ updates.map (fun v => tensorScale ((psLookup v k).getD []) c),
      t.length = L := by
    intro t ht
    rcases List.mem_map.mp ht with ⟨v, hv, rfl⟩
    obtain ⟨_, hlen⟩ := hcompat v hv
    simp only [tensorScale, List.length_map]
    exact hlen
  rcases updates with _ | ⟨u, us⟩
  · exact absurd rfl hne
  obtain ⟨s, hgo, hsl, hsv⟩ := torchSumGo_spec L
    (us.map (fun v => tensorScale ((psLookup v k).getD []) c))
    (tensorScale ((psLookup u k).getD []) c)
    (hlens _ (by simp)) (fun t ht => hlens t (by simp at ht ⊢; tauto))
  refine ⟨s, ?_, hsl, ?_⟩
  · rw [aggKey, hterms]
    simp only [List.map_cons, torchSum]
    rw [hgo]
  · intro j hj
    have hscale : ∀ v ∈ u :: us,
        (tensorScale ((psLookup v k).getD []) c).getD j 0
          = ((psLookup v k).getD []).getD j 0 * c := by
      intro v hv
      obtain ⟨_, hlen⟩ := hcompat v hv
      have hjv : j < ((psLookup v k).getD []).length := by omega
      have hjs : j < (tensorScale ((psLookup v k).getD []) c).length := by
        simp only [tensorScale, List.length_map]; omega
      rw [List.getD_eq_getElem _ _ hjs, List.getD_eq_getElem _ _ hjv]
      simp only [tensorScale, List.getElem_map]
    rw [hsv j hj, hscale u (by simp)]
    have hmm : (us.map (fun v => tensorScale ((psLookup v k).getD []) c)).map
        (fun t => t.getD j 0)
        = us.map (fun v => ((psLookup v k).getD []).getD j 0 * c) := by
      rw [List.map_map]
      apply List.map_congr_left
      intro v hv
      exact hscale v (by simp [hv])
    rw [hmm, List.sum_map_mul_right, List.map_cons, List.sum_cons, add_mul]

/-- The tensor computed by `aggKey`, with `[]` standing for a raised
exception. -/
def aggKeyVal (updates : List ParamStore) (weights : List ℚ) (k : String) :
    Tensor :=
  match aggKey updates weights k with
  | Except.ok t => t
  | Except.error _ => []

/-- Looking up a key in a store built by mapping over a key list. -/
theorem psLookup_mapKeys (S : String → Tensor) :
    ∀ (ks : List String) (k : String), k ∈ ks →
      psLookup (ks.map (fun x => (x, S x))) k = some (S k)
  | [], k, h => absurd h (List.not_mem_nil k)
  | k0 :: rest, k, h => by
    by_cases he : k0 = k
    · subst he
      unfold psLookup
      rw [List.map_cons, List.find?_cons_of_pos _ (by simp)]
      rfl
    · have hk : k ∈ rest := by
        rcases List.mem_cons.mp h with h1 | h1
        · exact absurd h1.symm he
        · exact h1
      unfold psLookup
      rw [List.map_cons, List.find?_cons_of_neg _ (by simp [he])]
      exact psLookup_mapKeys S rest k hk

/-- With distinct keys, a store's per-entry shape profile is determined by
the shapes of its lookups. -/
theorem mapShape_eq (m : String → ℕ) :
    ∀ (d : ParamStore), (psKeys d).Nodup →
      (∀ k ∈ psKeys d, ((psLookup d k).getD []).length = m k) →
      d.map (fun p => (p.1, p.2.length)) = (psKeys d).map (fun k => (k, m k))
  | [], _, _ => rfl
  | (k0, t0) :: rest, hnd, h => by
    have hkeys : psKeys ((k0, t0) :: rest) = k0 :: psKeys rest := rfl
    rw [hkeys] at hnd
    obtain ⟨hk0, hnd'⟩ := List.nodup_cons.mp hnd
    have hlk : psLookup ((k0, t0) :: rest) k0 = some t0 := by
      unfold psLookup
      rw [List.find?_cons_of_pos _ (by simp)]
      rfl
    have hh : t0.length = m k0 := by
      have := h k0 (by rw [hkeys]; simp)
      rw [hlk] at this
      simpa using this
    have hrest : ∀ k ∈ psKeys rest, ((psLookup rest k).getD []).length = m k := by
      intro k hk
      have hne : k0 ≠ k := fun he => hk0 (he ▸ hk)
      have hlook := h k (by rw [hkeys]; simp [hk])
      unfold psLookup at hlook
      rw [List.find?_cons_of_neg _ (by simp [hne])] at hlook
      exact hlook
    have ih := mapShape_eq m rest hnd' hrest
    show (k0, t0.length) :: rest.map (fun p => (p.1, p.2.length))
        = (k0, m k0) :: (psKeys rest).map (fun k => (k, m k))
    rw [hh, ih]

/-- Entry-level reading of a shape profile: every entry's tensor length is
given by the profile function. -/
theorem entry_shape (m : String → ℕ) :
    ∀ (d : ParamStore),
      d.map (fun p => (p.1, p.2.length)) = (psKeys d).map (fun k => (k, m k)) →
      ∀ p ∈ d, p.2.length = m p.1
  | [], _, p, hp => absurd hp (List.not_mem_nil p)
  | q :: rest, h, p, hp => by
    rw [show psKeys (q :: rest) = q.1 :: psKeys rest from rfl,
      List.map_cons, List.map_cons] at h
    obtain ⟨h1, h2⟩ := List.cons.inj h
    rcases List.mem_cons.mp hp with rfl | hp2
    · exact ((Prod.mk.injEq _ _ _ _).mp h1).2
    · exact entry_shape m rest h2 p hp2

/-- A key present in a store looks up to a tensor whose length the
entry-level shape profile gives. -/
theorem psLookup_mem_shape (d : ParamStore) (m : String → ℕ)
    (hE : ∀ p ∈ d, p.2.length = m p.1) (k : String) (hk : k ∈ psKeys d) :
    ∃ t, psLookup d k = some t ∧ t.length = m k := by
  obtain ⟨p, hpmem, hfst⟩ := List.mem_map.mp hk
  have hs : (d.find? (fun q => decide (q.1 = k))).isSome :=
    List.find?_isSome.mpr ⟨p, hpmem, by simp [hfst]⟩
  obtain ⟨a, ha⟩ := Option.isSome_iff_exists.mp hs
  have hak : a.1 = k := by
    have := List.find?_some ha
    simpa using this
  have hamem : a ∈ d := List.mem_of_find?_eq_some ha
  refine ⟨a.2, ?_, ?_⟩
  · unfold psLookup
    rw [ha]
    rfl
  · rw [hE a hamem, hak]

/-- Looking a key up after a `load_state_dict` traversal: the found entry is
the model's entry at that key, transformed by `loadedEntry`. -/
theorem psLookup_loadedStore (g d : ParamStore) (k : String) :
    psLookup (loadedStore g d) k
      = (g.find? (fun q => decide (q.1 = k))).map
          (fun p => (loadedEntry d p).2) := by
  unfold psLookup loadedStore
  rw [List.find?_map, Option.map_map]
  rfl

/-- When a key has the model's shape in the incoming dictionary,
`load_state_dict` installs exactly the incoming tensor at that key. -/
theorem psLookup_loadedStore_of_match (g d : ParamStore) (k : String)
    (tg td : Tensor) (hgk : psLookup g k = some tg)
    (hdk : psLookup d k = some td) (hlen : td.length = tg.length) :
    psLookup (loadedStore g d) k = some td := by
  rw [psLookup_loadedStore]
  unfold psLookup at hgk
  cases hfind : g.find? (fun q => decide (q.1 = k)) with
  | none => rw [hfind] at hgk; simp at hgk
  | some a =>
    rw [hfind] at hgk
    have ha2 : a.2 = tg := by simpa using hgk
    have hak : a.1 = k := by
      have := List.find?_some hfind
      simpa using this
    have hentry : (loadedEntry d a).2 = td := by
      unfold loadedEntry
      simp only [hak, hdk, ha2]
      rw [if_pos hlen]
    show Option.map (fun p => (loadedEntry d p).2) (some a) = some td
    rw [Option.map_some']
    exact congrArg some hentry

/-! ### Claim theorems -/

/-- C1: the spec requires `aggregate_models` to reject with
`AggregationError` any weight vector not summing to 1; the code performs no
weight validation, and aggregating `{"w": 2.0}` and `{"w": 4.0}` with
weights `[1.0, 1.0]` succeeds, producing the inflated store `{"w": 6.0}`
instead of raising. -/
theorem aggregate_models_unnormalized_weights_accepted :
    aggregate_models [("w", [(0 : ℚ)])]
      [[("w", [(2 : ℚ)])], [("w", [(4 : ℚ)])]] (some [1, 1])
      = ([("w", [(6 : ℚ)])], Except.ok ()) := by
  norm_num [aggregate_models, computeGlobalDict, aggKey, aggTerm, psLookup,
    psKeys, tensorScale, torchSum, torchSumGo, tensorAdd, loadStateDict,
    loadedStore, loadedEntry, loadOk, mapExcept, List.find?]

/-- C2: aggregating a non-empty list of client updates with identical key
sets and per-key shapes under the uniform weight vector — supplied
explicitly, or arising by default when no weights are passed — succeeds and
yields, for every parameter key and every component, exactly the arithmetic
mean of that component across the updates. -/
theorem aggregate_models_uniform_mean (g u : ParamStore) (us : List ParamStore)
    (w? : Option (List ℚ)) (m : String → ℕ)
    (hw : w? = none ∨
      w? = some ((u :: us).map (fun _ => 1 / (((u :: us).length : ℕ) : ℚ))))
    (hnd : (psKeys u).Nodup)
    (hcompat : ∀ v ∈ u :: us, ∀ k ∈ psKeys u,
      (psLookup v k).isSome = true ∧ ((psLookup v k).getD []).length = m k)
    (hg : g.map (fun p => (p.1, p.2.length))
      = u.map (fun p => (p.1, p.2.length))) :
    ∃ res, aggregate_models g (u :: us) w? = (res, Except.ok ()) ∧
      ∀ k ∈ psKeys u, ∃ t, psLookup res k = some t ∧ t.length = m k ∧
        ∀ j, j < m k →
          t.getD j 0
            = ((u :: us).map (fun v => ((psLookup v k).getD []).getD j 0)).sum
              / (((u :: us).length : ℕ) : ℚ) := by
  have hAgg : ∀ k ∈ psKeys u,
      ∃ s, aggKey (u :: us)
          ((u :: us).map (fun _ => 1 / (((u :: us).length : ℕ) : ℚ))) k
        = Except.ok s ∧ s.length = m k ∧
        ∀ j, j < m k →
          s.getD j 0
            = ((u :: us).map (fun v => ((psLookup v k).getD []).getD j 0)).sum
              * (1 / (((u :: us).length : ℕ) : ℚ)) :=
    fun k hk => aggKey_uniform_spec (u :: us) _ k (m k) (by simp)
      (fun v hv => hcompat v hv k hk)
  have hval : ∀ k ∈ psKeys u,
      aggKey (u :: us)
          ((u :: us).map (fun _ => 1 / (((u :: us).length : ℕ) : ℚ))) k
        = Except.ok (aggKeyVal (u :: us)
            ((u :: us).map (fun _ => 1 / (((u :: us).length : ℕ) : ℚ))) k) := by
    intro k hk
    obtain ⟨s, hok, _, _⟩ := hAgg k hk
    unfold aggKeyVal
    rw [hok]
  have hmapE : mapExcept (fun k =>
        match aggKey (u :: us)
            ((u :: us).map (fun _ => 1 / (((u :: us).length : ℕ) : ℚ))) k with
        | Except.error e => Except.error e
        | Except.ok t => Except.ok (k, t)) (psKeys u)
      = Except.ok ((psKeys u).map (fun k =>
          (k, aggKeyVal (u :: us)
            ((u :: us).map (fun _ => 1 / (((u :: us).length : ℕ) : ℚ))) k))) := by
    apply mapExcept_ok
    intro k hk
    rw [hval k hk]
  have hlenKey : ∀ k ∈ psKeys u,
      (aggKeyVal (u :: us)
        ((u :: us).map (fun _ => 1 / (((u :: us).length : ℕ) : ℚ))) k).length
        = m k := by
    intro k hk
    obtain ⟨s, hok, hlen, _⟩ := hAgg k hk
    have hv := hval k hk
    rw [hok] at hv
    rw [← Except.ok.inj hv]
    exact hlen
  have hKeys : psKeys g = psKeys u := by
    have h2 := congrArg (List.map Prod.fst) hg
    simpa [psKeys, List.map_map, Function.comp] using h2
  have hgshape : g.map (fun p => (p.1, p.2.length))
      = (psKeys g).map (fun k => (k, m k)) := by
    rw [hg, mapShape_eq m u hnd (fun k hk => (hcompat u (by simp) k hk).2),
      hKeys]
  have hEntry : ∀ p ∈ g, p.2.length = m p.1 := entry_shape m g hgshape
  have hdict : ∀ k ∈ psKeys u,
      psLookup ((psKeys u).map (fun k2 =>
        (k2, aggKeyVal (u :: us)
          ((u :: us).map (fun _ => 1 / (((u :: us).length : ℕ) : ℚ))) k2))) k
      = some (aggKeyVal (u :: us)
          ((u :: us).map (fun _ => 1 / (((u :: us).length : ℕ) : ℚ))) k) :=
    fun k hk => psLookup_mapKeys
      (fun k2 => aggKeyVal (u :: us)
        ((u :: us).map (fun _ => 1 / (((u :: us).length : ℕ) : ℚ))) k2)
      (psKeys u) k hk
  have hok : loadOk g ((psKeys u).map (fun k =>
      (k, aggKeyVal (u :: us)
        ((u :: us).map (fun _ => 1 / (((u :: us).length : ℕ) : ℚ))) k)))
      = true := by
    unfold loadOk
    rw [Bool.and_eq_true]
    constructor
    · rw [List.all_eq_true]
      intro p hp
      have hpk : p.1 ∈ psKeys u := by
        rw [← hKeys]
        exact List.mem_map_of_mem _ hp
      simp only [hdict p.1 hpk]
      rw [hlenKey p.1 hpk, hEntry p hp]
      simp
    · rw [List.all_eq_true]
      intro q hq
      rcases List.mem_map.mp hq with ⟨k, hkmem, rfl⟩
      obtain ⟨tg, hgk, _⟩ := psLookup_mem_shape g m hEntry k
        (by rw [hKeys]; exact hkmem)
      simp [hgk]
  have hcompute : computeGlobalDict (u :: us) w?
      = Except.ok ((psKeys u).map (fun k =>
          (k, aggKeyVal (u :: us)
            ((u :: us).map (fun _ => 1 / (((u :: us).length : ℕ) : ℚ))) k))) := by
    rcases hw with rfl | rfl
    · exact hmapE
    · exact hmapE
  have hred : aggregate_models g (u :: us) w?
      = (loadedStore g ((psKeys u).map (fun k =>
          (k, aggKeyVal (u :: us)
            ((u :: us).map (fun _ => 1 / (((u :: us).length : ℕ) : ℚ))) k))),
        Except.ok ()) := by
    unfold aggregate_models
    simp only [hcompute]
    unfold loadStateDict
    rw [if_pos hok]
  refine ⟨_, hred, ?_⟩
  intro k hk
  obtain ⟨s, hok2, hlen, hvals⟩ := hAgg k hk
  have hsk : aggKeyVal (u :: us)
      ((u :: us).map (fun _ => 1 / (((u :: us).length : ℕ) : ℚ))) k = s := by
    have hv := hval k hk
    rw [hok2] at hv
    exact (Except.ok.inj hv).symm
  obtain ⟨tg, hgk, hgtlen⟩ := psLookup_mem_shape g m hEntry k
    (by rw [hKeys]; exact hk)
  have hdk2 : psLookup ((psKeys u).map (fun k2 =>
      (k2, aggKeyVal (u :: us)
        ((u :: us).map (fun _ => 1 / (((u :: us).length : ℕ) : ℚ))) k2))) k
      = some s := by
    rw [hdict k hk, hsk]
  have hsl : s.length = tg.length := by
    rw [hlen, hgtlen]
  have hres := psLookup_loadedStore_of_match g _ k tg s hgk hdk2 hsl
  refine ⟨s, hres, hlen, ?_⟩
  intro j hj
  rw [hvals j hj, mul_one_div]

/-- C2 witness: aggregating `{"w": 2.0}` and `{"w": 4.0}` with the uniform
weights `[1/2, 1/2]` succeeds and yields `{"w": 3.0}` — the arithmetic
mean. -/
theorem aggregate_models_uniform_mean_witness :
    ∃ res, aggregate_models [("w", [(0 : ℚ)])]
        [[("w", [(2 : ℚ)])], [("w", [(4 : ℚ)])]] (some [1/2, 1/2])
        = (res, Except.ok ()) ∧
      ∀ k ∈ psKeys [("w", [(2 : ℚ)])], ∃ t, psLookup res k = some t ∧
        t.length = 1 ∧
        ∀ j, j < 1 →
          t.getD j 0
            = (([[("w", [(2 : ℚ)])], [("w", [(4 : ℚ)])]].map
                (fun v => ((psLookup v k).getD []).getD j 0)).sum)
              / ((([[("w", [(2 : ℚ)])], [("w", [(4 : ℚ)])]].length : ℕ)) : ℚ) :=
  aggregate_models_uniform_mean [("w", [(0 : ℚ)])] [("w", [(2 : ℚ)])]
    [[("w", [(4 : ℚ)])]] (some [1/2, 1/2]) (fun _ => 1)
    (Or.inr (by norm_num))
    (by simp [psKeys])
    (by intro v hv k hk; fin_cases hv <;> simp_all [psKeys, psLookup, List.find?])
    (by rfl)

/-- C3 counterexample: with a 7-example dataset and 4 clients, the IID split
gives shard sizes 1, 1, 1, 4 — two shard sizes differing by more than 1, so
the claimed "any two shard sizes differ by at most 1" is false. -/
theorem split_data_iid_sizes_counterexample :
    ∃ s1 ∈ split_data 0 (List.replicate 7 (0 : ℤ)) 4 "iid",
      ∃ s2 ∈ split_data 0 (List.replicate 7 (0 : ℤ)) 4 "iid",
        s2.length + 2 ≤ s1.length := by
  decide

/-- C3 amended: the IID split is an exact partition — the concatenation of
the shards is a permutation of the full index range (no index duplicated or
lost) — and the shard sizes are `len / n` for every client but the last,
and `len / n + len % n` for the last one (so sizes can differ by up to
`len % n`, not at most 1). -/
theorem split_data_iid_partition (s : ℕ) (labels : List ℤ) (n : ℕ)
    (h : 1 ≤ n) :
    List.Perm (split_data s labels n "iid").flatten
      (List.range labels.length) ∧
    (split_data s labels n "iid").map List.length
      = (List.range n).map (fun i =>
          if i < n - 1 then labels.length / n
          else labels.length / n + labels.length % n) := by
  have hsd : split_data s labels n "iid"
      = iidChunks (shuffle s (List.range labels.length))
          (labels.length / n) n := by
    simp [split_data]
  have hlen : (shuffle s (List.range labels.length)).length = labels.length := by
    rw [shuffle_length, List.length_range]
  constructor
  · rw [hsd, iidChunks_flatten _ n h]
    exact shuffle_perm _ _
  · rw [hsd]
    have := iidChunks_length (shuffle s (List.range labels.length)) n h
    rw [hlen] at this
    exact this

/-- C3 amended witness: the partition theorem applied to the concrete
7-example, 4-client instance. -/
theorem split_data_iid_partition_witness :
    List.Perm (split_data 0 (List.replicate 7 (0 : ℤ)) 4 "iid").flatten
      (List.range (List.replicate 7 (0 : ℤ)).length) ∧
    (split_data 0 (List.replicate 7 (0 : ℤ)) 4 "iid").map List.length
      = (List.range 4).map (fun i =>
          if i < 4 - 1 then (List.replicate 7 (0 : ℤ)).length / 4
          else (List.replicate 7 (0 : ℤ)).length / 4
            + (List.replicate 7 (0 : ℤ)).length % 4) :=
  split_data_iid_partition 0 (List.replicate 7 (0 : ℤ)) 4 (by norm_num)

/-- C4 counterexample: round atomicity fails.  With a global store
`{"a": shape 1, "b": shape 2}` and one client update
`{"a": [2], "b": [5]}`, the weighted-sum stage succeeds and the strict
`load_state_dict` raises on the size-mismatched key `"b"` — but only after
copying the matching-shape key `"a"` in place, so the failed attempt leaves
the global Parameter Store partially updated, not identical to before. -/
theorem aggregate_models_not_atomic_counterexample :
    (aggregate_models [("a", [(0 : ℚ)]), ("b", [(0 : ℚ), 0])]
        [[("a", [(2 : ℚ)]), ("b", [(5 : ℚ)])]] none).2
      = Except.error FLError.runtimeError ∧
    (aggregate_models [("a", [(0 : ℚ)]), ("b", [(0 : ℚ), 0])]
        [[("a", [(2 : ℚ)]), ("b", [(5 : ℚ)])]] none).1
      = [("a", [(2 : ℚ)]), ("b", [(0 : ℚ), 0])] ∧
    (aggregate_models [("a", [(0 : ℚ)]), ("b", [(0 : ℚ), 0])]
        [[("a", [(2 : ℚ)]), ("b", [(5 : ℚ)])]] none).1
      ≠ [("a", [(0 : ℚ)]), ("b", [(0 : ℚ), 0])] := by
  have h1 : (aggregate_models [("a", [(0 : ℚ)]), ("b", [(0 : ℚ), 0])]
      [[("a", [(2 : ℚ)]), ("b", [(5 : ℚ)])]] none).1
      = [("a", [(2 : ℚ) * (1 / ((1 : ℕ) : ℚ))]), ("b", [(0 : ℚ), 0])] := rfl
  have h2 : (aggregate_models [("a", [(0 : ℚ)]), ("b", [(0 : ℚ), 0])]
      [[("a", [(2 : ℚ)]), ("b", [(5 : ℚ)])]] none).1
      = [("a", [(2 : ℚ)]), ("b", [(0 : ℚ), 0])] := by
    rw [h1]
    norm_num
  refine ⟨rfl, h2, ?_⟩
  rw [h2]
  norm_num

/-- C4 amended: atomicity holds exactly up to the load.  Whenever the
aggregation attempt fails in the computation stage — before
`load_state_dict` is reached (an empty update list, or a key of
`client_updates[0]` missing from another update while forming the weighted
sums) — the global Parameter Store is unchanged, because the aggregate is
computed into a fresh dictionary first; a failure raised by the strict
`load_state_dict` itself (client-vs-global shape or key mismatch) can
instead leave the store partially updated. -/
theorem aggregate_models_atomic_before_load (g : ParamStore)
    (updates : List ParamStore) (w? : Option (List ℚ)) (e : FLError)
    (h : computeGlobalDict updates w? = Except.error e) :
    (aggregate_models g updates w?).1 = g := by
  unfold aggregate_models
  rw [h]

/-- C4 amended witness: two updates whose key sets disagree fail in the
weighted-sum stage with `KeyError`, and the global store is exactly what it
was before the attempt. -/
theorem aggregate_models_atomic_before_load_witness :
    computeGlobalDict [[("w", [(2 : ℚ)])], [("a", [(1 : ℚ)])]]
        (some [1/2, 1/2])
      = Except.error FLError.keyError ∧
    (aggregate_models [("w", [(0 : ℚ)])]
        [[("w", [(2 : ℚ)])], [("a", [(1 : ℚ)])]] (some [1/2, 1/2])).1
      = [("w", [(0 : ℚ)])] :=
  ⟨rfl, aggregate_models_atomic_before_load _ _ _ FLError.keyError rfl⟩

/-- C5: for at least one client and a fraction in `(0, 1]`, `select_clients`
succeeds and returns `max(1, floor(num_clients * fraction))` distinct client
ids, all drawn from `{0, …, num_clients - 1}`. -/
theorem select_clients_spec (s numClients : ℕ) (fraction : ℚ)
    (h1 : 1 ≤ numClients) (h2 : 0 < fraction) (h3 : fraction ≤ 1) :
    ∃ l, select_clients s numClients fraction = Except.ok l ∧
      l.length = max 1 (Int.toNat ⌊(numClients : ℚ) * fraction⌋) ∧
      l.Nodup ∧ ∀ x ∈ l, x < numClients := by
  have hfle : (numClients : ℚ) * fraction ≤ (numClients : ℚ) := by
    calc (numClients : ℚ) * fraction ≤ (numClients : ℚ) * 1 :=
      mul_le_mul_of_nonneg_left h3 (by positivity)
    _ = (numClients : ℚ) := mul_one _
  have hfloor : ⌊(numClients : ℚ) * fraction⌋ ≤ (numClients : ℤ) := by
    calc ⌊(numClients : ℚ) * fraction⌋ ≤ ⌊(numClients : ℚ)⌋ :=
      Int.floor_le_floor hfle
    _ = (numClients : ℤ) := Int.floor_natCast _
  have hk : max 1 (Int.toNat ⌊(numClients : ℚ) * fraction⌋) ≤ numClients := by
    rw [max_le_iff]
    exact ⟨h1, Int.toNat_le.mpr hfloor⟩
  have hnodup : (shuffle s (List.range numClients)).Nodup :=
    (shuffle_perm s (List.range numClients)).nodup_iff.mpr (List.nodup_range _)
  unfold select_clients
  rw [if_pos hk]
  refine ⟨_, rfl, ?_, ?_, ?_⟩
  · rw [List.length_take, shuffle_length, List.length_range]
    exact min_eq_left hk
  · exact hnodup.sublist (List.take_sublist _ _)
  · intro x hx
    have hmem : x ∈ shuffle s (List.range numClients) :=
      List.mem_of_mem_take hx
    exact List.mem_range.mp
      ((shuffle_perm s (List.range numClients)).mem_iff.mp hmem)

/-- C5 witness: `select_clients(num_clients=5, fraction=1/5)` returns
exactly one distinct client id below 5. -/
theorem select_clients_spec_witness :
    ∃ l, select_clients 0 5 (1/5) = Except.ok l ∧
      l.length = max 1 (Int.toNat ⌊((5 : ℕ) : ℚ) * (1/5)⌋) ∧
      l.Nodup ∧ ∀ x ∈ l, x < 5 :=
  select_clients_spec 0 5 (1/5) (by norm_num) (by norm_num) (by norm_num)

/-- C6: the spec requires `Client.train` on an empty shard to fail with
`EmptyShardError` and never divide by zero; the code instead reaches
`epoch_loss / len(self.data_loader)` with an empty loader and raises
`ZeroDivisionError`. -/
theorem clientTrain_empty_shard :
    clientTrain (fun (s : Unit) (_ : Unit) => (s, 0)) () ([] : List Unit) 1
      = Except.error FLError.zeroDivisionError := by
  norm_num [clientTrain, clientTrainLoop, trainEpoch, pyDiv]

/-- C7: the spec requires `select_clients` to fail with `ConfigurationError`
for a fraction outside `(0, 1]`; the code performs no validation, and with
`num_clients = 4`, `fraction = 0` it succeeds, returning a one-client
selection. -/
theorem select_clients_zero_fraction_accepted :
    select_clients 0 4 0 = Except.ok [1] := by
  norm_num [select_clients, shuffle, shuffleGo, lcg, List.range_succ]

/-- C8: IID partitioning is deterministic in the generator state: the same
seed and the same dataset give the identical index-to-client assignment. -/
theorem split_data_deterministic (s₁ s₂ : ℕ) (l₁ l₂ : List ℤ) (n : ℕ)
    (hs : s₁ = s₂) (hl : l₁ = l₂) :
    split_data s₁ l₁ n "iid" = split_data s₂ l₂ n "iid" := by
  rw [hs, hl]

/-- C8 witness: concrete instance of the determinism theorem. -/
theorem split_data_deterministic_witness :
    split_data 0 [(0 : ℤ), 1, 2] 2 "iid" = split_data 0 [(0 : ℤ), 1, 2] 2 "iid" :=
  split_data_deterministic 0 0 [(0 : ℤ), 1, 2] [(0 : ℤ), 1, 2] 2 rfl rfl

/-- C9: in non-IID mode, when the number of clients exceeds the number of
distinct labels, `len(unique_labels) // num_clients` is 0, so every client's
label block is empty and every client — not only those beyond label
coverage — receives an empty shard. -/
theorem split_data_non_iid_all_empty (s : ℕ) (labels : List ℤ) (n : ℕ)
    (h : (uniqueSorted labels).length < n) :
    (uniqueSorted labels).length / n = 0 ∧
    ∀ shard ∈ split_data s labels n "non_iid", shard = [] := by
  have hdiv : (uniqueSorted labels).length / n = 0 := Nat.div_eq_of_lt h
  refine ⟨hdiv, ?_⟩
  have hsd : split_data s labels n "non_iid"
      = (List.range n).map (fun _ => ([] : List ℕ)) := by
    simp [split_data, hdiv]
  intro shard hs
  rw [hsd] at hs
  rcases List.mem_map.mp hs with ⟨i, _, hi⟩
  exact hi.symm

/-- C9 witness: 2 distinct labels, 3 clients — the block size is 0 and all
three shards are empty. -/
theorem split_data_non_iid_all_empty_witness :
    (uniqueSorted [(0 : ℤ), 1]).length / 3 = 0 ∧
    ∀ shard ∈ split_data 0 [(0 : ℤ), 1] 3 "non_iid", shard = [] :=
  split_data_non_iid_all_empty 0 [(0 : ℤ), 1] 3 (by decide)

/-- C10: `aggregate_models` never mutates a caller-supplied client update:
every heap cell referenced by `client_updates`, as long as it is not the
global model's own cell, holds the same Parameter Store after the call. -/
theorem aggregate_models_frame (st : AggState) (refs : List ℕ)
    (w? : Option (List ℚ)) (r : ℕ) (hr : r ∈ refs) (hne : r ≠ st.globalRef) :
    ((aggregateModelsRef st refs w?).1).heap.get? r = st.heap.get? r := by
  cases hg : st.heap[st.globalRef]? with
  | none => simp [aggregateModelsRef, hg]
  | some g =>
    cases hm : lookupRefs st.heap refs with
    | none => simp [aggregateModelsRef, hg, hm]
    | some updates =>
      have h1 : (aggregateModelsRef st refs w?).1
          = { st with heap :=
              st.heap.set st.globalRef (aggregate_models g updates w?).1 } := by
        simp [aggregateModelsRef, hg, hm]
      rw [h1]
      exact List.get?_set_ne _ st.heap (Ne.symm hne)

/-- C10 witness: a successful aggregation over heap cells 1 and 2 leaves
update cell 1 exactly as it was. -/
theorem aggregate_models_frame_witness :
    ((aggregateModelsRef
        ⟨[[("w", [(0 : ℚ)])], [("w", [(2 : ℚ)])], [("w", [(4 : ℚ)])]], 0⟩
        [1, 2] none).1).heap.get? 1
      = (⟨[[("w", [(0 : ℚ)])], [("w", [(2 : ℚ)])], [("w", [(4 : ℚ)])]], 0⟩ :
          AggState).heap.get? 1 :=
  aggregate_models_frame _ [1, 2] none 1 (by simp) (by simp)

end AvarenFL
